import Mathlib

/-!
Verification of the mpais measurement pipeline (`src/main_window.py`).

The development shallowly embeds the algorithmic core of the source file:

* `sort_grid_points`   — PointOrdering (src lines 281-321);
* `apply_nms_manual`   — MarkerLocator duplicate suppression (src lines 781-800)
  with `nms_distance = min w h / 2` from `tm_task` (line 841);
* `ceContourCenter`, `ceDedup` — CenterExtractor per-contour centroid and
  Euclidean deduplication (src lines 997-1032);
* `getAffineTransform`, `ct_task`, `run_coordinate_transformation` —
  CoordinateMapper (src lines 1205-1276);
* `plot_task_track` — CorrespondenceTracker (src lines 1746-1822).

Coordinates and scores are modelled by `ℚ` (exact arithmetic in place of
IEEE floats), array indices by `ℕ`, and Python's stable `list.sort` /
`np.argsort` by `List.insertionSort` (a stable insertion sort; tie-breaking
among equal keys is implementation-defined in the source, the model fixes
the stable choice).
-/

namespace MPAIS

abbrev Pt := ℚ × ℚ

/-- Comparison by y coordinate, the key of the first sort in
`sort_grid_points` (`np.argsort(points[:, 1])`). -/
def yle (p q : Pt) : Prop := p.2 ≤ q.2

/-- Comparison by x coordinate, the within-row sort key
(`np.argsort(row_points_subset[:, 0])`). -/
def xle (p q : Pt) : Prop := p.1 ≤ q.1

instance : DecidableRel yle := fun p q => inferInstanceAs (Decidable (p.2 ≤ q.2))

instance : DecidableRel xle := fun p q => inferInstanceAs (Decidable (p.1 ≤ q.1))

instance : IsTotal Pt yle := ⟨fun p q => le_total p.2 q.2⟩

instance : IsTrans Pt yle := ⟨fun _ _ _ h h' => le_trans h h'⟩

instance : IsTotal Pt xle := ⟨fun p q => le_total p.1 q.1⟩

instance : IsTrans Pt xle := ⟨fun _ _ _ h h' => le_trans h h'⟩

/-- Mean of the y coordinates of a cluster; `np.mean(points[indices, 1])`,
with the `if indices else 0` fallback of the sort key (src line 311). -/
def meanY (c : List Pt) : ℚ := if c = [] then 0 else (c.map Prod.snd).sum / (c.length : ℚ)

/-- Comparison of clusters by mean y, the key of
`row_clusters_indices.sort` (src line 311). -/
def mley (b c : List Pt) : Prop := meanY b ≤ meanY c

instance : DecidableRel mley := fun b c => inferInstanceAs (Decidable (meanY b ≤ meanY c))

instance : IsTotal (List Pt) mley := ⟨fun b c => le_total (meanY b) (meanY c)⟩

instance : IsTrans (List Pt) mley := ⟨fun _ _ _ h h' => le_trans h h'⟩

/-- Row-clustering loop of `sort_grid_points` (src lines 294-307):
`last_y` is updated only when a new cluster starts, so a point joins the
current cluster while its y-gap to the cluster's first point is `< r`. -/
def clustersAux (r lastY : ℚ) (cur : List Pt) : List Pt → List (List Pt)
  | [] => [cur]
  | p :: rest =>
    if |p.2 - lastY| < r then clustersAux r lastY (cur ++ [p]) rest
    else cur :: clustersAux r p.2 [p] rest

/-- Partition of a (y-sorted) point list into row clusters, as done by
the loop in src lines 294-307. -/
def clusters (r : ℚ) : List Pt → List (List Pt)
  | [] => []
  | p :: rest => clustersAux r p.2 [p] rest

/-- PointOrdering: `sort_grid_points` from src lines 281-321.  The unused
`col_tolerance` parameter of the source is omitted.  Sort by y, partition
into row clusters, sort clusters by mean y, sort each cluster by x,
concatenate. -/
def sort_grid_points (pts : List Pt) (r : ℚ) : List Pt :=
  match pts with
  | [] => []
  | _ :: _ =>
    (((clusters r (pts.insertionSort yle)).insertionSort mley).map
      (fun c => c.insertionSort xle)).flatten

/-- Variant clustering following the specification's words for claim C3:
the y-gap is taken to the immediately previous point in y-sorted order
(`last_y` updated at every step), not to the cluster's first point. -/
def clustersPrevAux (r lastY : ℚ) (cur : List Pt) : List Pt → List (List Pt)
  | [] => [cur]
  | p :: rest =>
    if |p.2 - lastY| < r then clustersPrevAux r p.2 (cur ++ [p]) rest
    else cur :: clustersPrevAux r p.2 [p] rest

/-- Clustering by gap-to-previous-point, per the spec sentence of C3. -/
def clustersPrev (r : ℚ) : List Pt → List (List Pt)
  | [] => []
  | p :: rest => clustersPrevAux r p.2 [p] rest

/-- PointOrdering as claim C3 describes it: identical pipeline but with
gap-to-previous-point clustering. -/
def sort_grid_points_claimC3 (pts : List Pt) (r : ℚ) : List Pt :=
  match pts with
  | [] => []
  | _ :: _ =>
    (((clustersPrev r (pts.insertionSort yle)).insertionSort mley).map
      (fun c => c.insertionSort xle)).flatten

/-- Clustering with the cluster's first point carried explicitly, the
amended reading of C3: a point joins while the y-gap to the current
cluster's first (anchor) point is strictly less than `r`. -/
def clustersAnchorAux (r : ℚ) (first : Pt) (cur : List Pt) : List Pt → List (List Pt)
  | [] => [cur]
  | p :: rest =>
    if |p.2 - first.2| < r then clustersAnchorAux r first (cur ++ [p]) rest
    else cur :: clustersAnchorAux r p [p] rest

/-- Anchor-based clustering of a y-sorted list (amended C3). -/
def clustersAnchor (r : ℚ) : List Pt → List (List Pt)
  | [] => []
  | p :: rest => clustersAnchorAux r p [p] rest

/-- PointOrdering with the amended (anchor-gap) clustering. -/
def sort_grid_points_anchor (pts : List Pt) (r : ℚ) : List Pt :=
  match pts with
  | [] => []
  | _ :: _ =>
    (((clustersAnchor r (pts.insertionSort yle)).insertionSort mley).map
      (fun c => c.insertionSort xle)).flatten

theorem clustersAux_eq_anchor (r : ℚ) :
    ∀ (rest : List Pt) (first : Pt) (cur : List Pt),
      clustersAux r first.2 cur rest = clustersAnchorAux r first cur rest := by
  intro rest
  induction rest with
  | nil => intro first cur; rfl
  | cons p tl ih =>
    intro first cur
    by_cases h : |p.2 - first.2| < r
    · simp only [clustersAux, clustersAnchorAux, if_pos h]
      exact ih first (cur ++ [p])
    · simp only [clustersAux, clustersAnchorAux, if_neg h]
      rw [ih p [p]]

theorem clusters_eq_clustersAnchor (r : ℚ) (l : List Pt) :
    clusters r l = clustersAnchor r l := by
  cases l with
  | nil => rfl
  | cons p rest => exact clustersAux_eq_anchor r rest p [p]

/-- Claim C3 (counterexample): on the points (5,0), (0,30), (3,60) with
tolerance 50, the code's clustering (gap to the cluster's first point)
splits after (0,30) since |60 − 0| ≥ 50, while the claim's
gap-to-previous-point rule (|30 − 0| < 50, |60 − 30| < 50) keeps all three
points in one row; the produced orderings differ. -/
theorem C3_counterexample :
    sort_grid_points [(5, 0), (0, 30), (3, 60)] 50 = [(0, 30), (5, 0), (3, 60)] ∧
    sort_grid_points_claimC3 [(5, 0), (0, 30), (3, 60)] 50 = [(0, 30), (3, 60), (5, 0)] ∧
    sort_grid_points [(5, 0), (0, 30), (3, 60)] 50 ≠
      sort_grid_points_claimC3 [(5, 0), (0, 30), (3, 60)] 50 := by
  have h1 : sort_grid_points [(5, 0), (0, 30), (3, 60)] 50 = [(0, 30), (5, 0), (3, 60)] := by
    norm_num [sort_grid_points, clusters, clustersAux, meanY, mley, yle, xle, List.cons_ne_nil,
      List.insertionSort, List.orderedInsert]
  have h2 : sort_grid_points_claimC3 [(5, 0), (0, 30), (3, 60)] 50 =
      [(0, 30), (3, 60), (5, 0)] := by
    norm_num [sort_grid_points_claimC3, clustersPrev, clustersPrevAux, meanY, mley, yle, xle, List.cons_ne_nil,
      List.insertionSort, List.orderedInsert]
  refine ⟨h1, h2, ?_⟩
  rw [h1, h2]
  norm_num

/-- Claim C3 (amended): after sorting points by y, consecutive points join
the same row-cluster exactly while the y-gap to the current cluster's
first point (its anchor) is strictly less than the row tolerance `r`;
otherwise a new cluster starts.  Quantified over every input list and
tolerance: the code's ordering coincides with the anchor-gap pipeline. -/
theorem C3_sort_grid_points_anchor_gap (pts : List Pt) (r : ℚ) :
    sort_grid_points pts r = sort_grid_points_anchor pts r := by
  cases pts with
  | nil => rfl
  | cons p rest =>
    unfold sort_grid_points sort_grid_points_anchor
    rw [clusters_eq_clustersAnchor]

theorem clustersAux_flatten (r : ℚ) :
    ∀ (rest : List Pt) (a : ℚ) (cur : List Pt),
      (clustersAux r a cur rest).flatten = cur ++ rest := by
  intro rest
  induction rest with
  | nil => intro a cur; simp [clustersAux]
  | cons p tl ih =>
    intro a cur
    by_cases h : |p.2 - a| < r
    · simp only [clustersAux, if_pos h, ih, List.append_assoc, List.singleton_append]
    · simp only [clustersAux, if_neg h, List.flatten_cons, ih, List.singleton_append]

theorem clusters_flatten (r : ℚ) (l : List Pt) : (clusters r l).flatten = l := by
  cases l with
  | nil => rfl
  | cons p rest => simpa using clustersAux_flatten r rest p.2 [p]

theorem sort_grid_points_perm (pts : List Pt) (r : ℚ) :
    List.Perm (sort_grid_points pts r) pts := by
  cases pts with
  | nil => exact List.Perm.refl []
  | cons p rest =>
    unfold sort_grid_points
    have h1 : ((clusters r ((p :: rest).insertionSort yle)).insertionSort mley).map
        (fun c => c.insertionSort xle) |>.flatten |>.Perm <|
        ((clusters r ((p :: rest).insertionSort yle)).insertionSort mley).flatten := by
      have e1 : (((clusters r ((p :: rest).insertionSort yle)).insertionSort mley).map
          (fun c => c.insertionSort xle)).flatten =
          ((clusters r ((p :: rest).insertionSort yle)).insertionSort mley).flatMap
          (fun c => c.insertionSort xle) := rfl
      rw [e1, List.flatten_eq_flatMap]
      exact List.Perm.flatMap_left _ fun c _ => List.perm_insertionSort xle c
    have h2 : List.Perm ((clusters r ((p :: rest).insertionSort yle)).insertionSort mley).flatten
        (clusters r ((p :: rest).insertionSort yle)).flatten := by
      have hperm := List.perm_insertionSort mley (clusters r ((p :: rest).insertionSort yle))
      rw [List.flatten_eq_flatMap, List.flatten_eq_flatMap]
      exact hperm.flatMap_right id
    refine h1.trans (h2.trans ?_)
    rw [clusters_flatten]
    exact List.perm_insertionSort yle _

/-- Claim C10: PointOrdering returns a permutation of its input — the same
multiset of points, none added, dropped, duplicated or altered — and the
empty input yields the empty output.  (Stated for every tolerance `r`.) -/
theorem C10_sort_grid_points_permutation :
    (∀ (pts : List Pt) (r : ℚ), List.Perm (sort_grid_points pts r) pts) ∧
    (∀ r : ℚ, sort_grid_points [] r = []) :=
  ⟨sort_grid_points_perm, fun _ => rfl⟩

/-- Anchor of a row cluster: the y coordinate of its first point (0 for
the empty cluster, which never occurs). -/
def anchorY (B : List Pt) : ℚ := ((B.head?).map Prod.snd).getD 0

theorem anchorY_cons (q : Pt) (l : List Pt) : anchorY (q :: l) = q.2 := rfl

/-- Lexicographic comparison on (x, y), used to characterise the stable
within-row sort of y-sorted clusters. -/
def lexle (p q : Pt) : Prop := p.1 < q.1 ∨ (p.1 = q.1 ∧ p.2 ≤ q.2)

instance : DecidableRel lexle := fun p q =>
  inferInstanceAs (Decidable (p.1 < q.1 ∨ (p.1 = q.1 ∧ p.2 ≤ q.2)))

instance : IsTotal Pt lexle := by
  constructor
  intro p q
  rcases lt_trichotomy p.1 q.1 with h | h | h
  · exact Or.inl (Or.inl h)
  · rcases le_total p.2 q.2 with h2 | h2
    · exact Or.inl (Or.inr ⟨h, h2⟩)
    · exact Or.inr (Or.inr ⟨h.symm, h2⟩)
  · exact Or.inr (Or.inl h)

instance : IsTrans Pt lexle := by
  constructor
  intro a b c hab hbc
  rcases hab with h1 | ⟨h1, h1'⟩ <;> rcases hbc with h2 | ⟨h2, h2'⟩
  · exact Or.inl (h1.trans h2)
  · exact Or.inl (h2 ▸ h1)
  · exact Or.inl (h1 ▸ h2)
  · exact Or.inr ⟨h1.trans h2, h1'.trans h2'⟩

instance : IsAntisymm Pt lexle := by
  constructor
  intro a b hab hba
  rcases hab with h1 | ⟨h1, h1'⟩
  · rcases hba with h2 | ⟨h2, _⟩
    · exact absurd (h1.trans h2) (lt_irrefl _)
    · exact absurd h1 (h2 ▸ lt_irrefl _)
  · rcases hba with h2 | ⟨_, h2'⟩
    · exact absurd (h1 ▸ h2) (lt_irrefl _)
    · exact Prod.ext h1 (le_antisymm h1' h2')

theorem orderedInsert_append {α : Type} (R : α → α → Prop) [DecidableRel R] (a : α) :
    ∀ (X Y : List α), (∀ y ∈ Y, R a y) →
      List.orderedInsert R a (X ++ Y) = List.orderedInsert R a X ++ Y := by
  intro X
  induction X with
  | nil =>
    intro Y hY
    cases Y with
    | nil => rfl
    | cons y Y' => simp [List.orderedInsert, if_pos (hY y (List.mem_cons_self y Y'))]
  | cons x X' ih =>
    intro Y hY
    by_cases h : R a x
    · simp [List.orderedInsert, if_pos h]
    · simp only [List.cons_append, List.orderedInsert, if_neg h, List.append_eq, ih Y hY]

theorem insertionSort_append {α : Type} (R : α → α → Prop) [DecidableRel R] :
    ∀ (X Y : List α), (∀ x ∈ X, ∀ y ∈ Y, R x y) →
      List.insertionSort R (X ++ Y) = List.insertionSort R X ++ List.insertionSort R Y := by
  intro X
  induction X with
  | nil => intro Y _; rfl
  | cons x X' ih =>
    intro Y hXY
    have hstep : ∀ y ∈ List.insertionSort R Y, R x y := fun y hy =>
      hXY x (List.mem_cons_self x X') y ((List.mem_insertionSort R).1 hy)
    simp only [List.cons_append, List.insertionSort, List.append_eq,
      ih Y (fun p hp => hXY p (List.mem_cons_of_mem x hp)),
      orderedInsert_append R x _ _ hstep]

theorem insertionSort_flatten {α : Type} (R : α → α → Prop) [DecidableRel R] :
    ∀ (Bs : List (List α)),
      Bs.Pairwise (fun B B' => ∀ x ∈ B, ∀ y ∈ B', R x y) →
      List.insertionSort R Bs.flatten = (Bs.map (List.insertionSort R)).flatten := by
  intro Bs
  induction Bs with
  | nil => intro _; rfl
  | cons B Bs' ih =>
    intro hp
    have hsep : ∀ x ∈ B, ∀ y ∈ Bs'.flatten, R x y := by
      intro x hx y hy
      obtain ⟨B', hB', hyB'⟩ := List.mem_flatten.1 hy
      exact (List.pairwise_cons.1 hp).1 B' hB' x hx y hyB'
    simp only [List.flatten_cons, List.map_cons,
      insertionSort_append R B Bs'.flatten hsep, ih (List.pairwise_cons.1 hp).2]

theorem orderedInsert_xle_eq_lexle (a : Pt) :
    ∀ (L : List Pt), (∀ b ∈ L, a.2 ≤ b.2) →
      List.orderedInsert xle a L = List.orderedInsert lexle a L := by
  intro L
  induction L with
  | nil => intro _; rfl
  | cons b L' ih =>
    intro hL
    have hiff : xle a b ↔ lexle a b := by
      constructor
      · intro h
        rcases lt_or_eq_of_le h with h' | h'
        · exact Or.inl h'
        · exact Or.inr ⟨h', hL b (List.mem_cons_self b L')⟩
      · intro h
        rcases h with h' | ⟨h', _⟩
        · exact le_of_lt h'
        · exact le_of_eq h'
    by_cases h : xle a b
    · simp [List.orderedInsert, if_pos h, if_pos (hiff.1 h)]
    · have h' : ¬ lexle a b := fun hc => h (hiff.2 hc)
      simp only [List.orderedInsert, if_neg h, if_neg h',
        ih (fun p hp => hL p (List.mem_cons_of_mem b hp))]

theorem insertionSort_xle_eq_lexle :
    ∀ (m : List Pt), m.Sorted yle → List.insertionSort xle m = List.insertionSort lexle m := by
  intro m
  induction m with
  | nil => intro _; rfl
  | cons a m' ih =>
    intro hs
    have hrest : ∀ b ∈ List.insertionSort lexle m', a.2 ≤ b.2 := by
      intro b hb
      exact List.rel_of_sorted_cons hs b ((List.mem_insertionSort lexle).1 hb)
    simp only [List.insertionSort, ih hs.of_cons,
      orderedInsert_xle_eq_lexle a _ hrest]

theorem sortLex_eq_of_perm {m m' : List Pt} (h : List.Perm m m') :
    List.insertionSort lexle m = List.insertionSort lexle m' := by
  refine List.eq_of_perm_of_sorted ?_ (List.sorted_insertionSort lexle m)
    (List.sorted_insertionSort lexle m')
  exact ((List.perm_insertionSort lexle m).trans h).trans
    (List.perm_insertionSort lexle m').symm

/-- Re-x-sorting after a stable y-sort of an x-sorted y-sorted-origin block
reproduces the same sequence. -/
theorem sortX_sortY_sortX {B : List Pt} (hB : B.Sorted yle) :
    List.insertionSort xle (List.insertionSort yle (List.insertionSort xle B)) =
      List.insertionSort xle B := by
  have h1 : List.insertionSort xle (List.insertionSort yle (List.insertionSort xle B)) =
      List.insertionSort lexle (List.insertionSort yle (List.insertionSort xle B)) :=
    insertionSort_xle_eq_lexle _ (List.sorted_insertionSort yle _)
  have h2 : List.insertionSort lexle (List.insertionSort yle (List.insertionSort xle B)) =
      List.insertionSort lexle B :=
    sortLex_eq_of_perm ((List.perm_insertionSort yle _).trans (List.perm_insertionSort xle B))
  rw [h1, h2, ← insertionSort_xle_eq_lexle B hB]

theorem head_min_of_sorted {l : List Pt} {p q : Pt} (h : (p :: l).Sorted yle)
    (hq : q ∈ p :: l) : p.2 ≤ q.2 := by
  rcases List.mem_cons.1 hq with h' | h'
  · exact le_of_eq (congrArg Prod.snd h'.symm)
  · exact List.rel_of_sorted_cons h q h'

/-- Structure of the row clusters produced by the clustering loop on a
y-sorted input: every block is nonempty, y-sorted and contained in the
half-open band `[anchor, anchor + r)` of its first point, and consecutive
anchors are at least `r` apart. -/
theorem clustersAux_spec (r : ℚ) (hr : 0 < r) :
    ∀ (rest : List Pt) (a : ℚ) (cur : List Pt),
      rest.Sorted yle → cur ≠ [] → cur.Sorted yle → anchorY cur = a →
      (∀ p ∈ cur, a ≤ p.2 ∧ p.2 - a < r) →
      (∀ p ∈ cur, ∀ q ∈ rest, p.2 ≤ q.2) →
      (∀ q ∈ rest, a ≤ q.2) →
      (∀ B ∈ clustersAux r a cur rest,
         B ≠ [] ∧ B.Sorted yle ∧ ∀ p ∈ B, anchorY B ≤ p.2 ∧ p.2 - anchorY B < r) ∧
      (clustersAux r a cur rest).Chain' (fun B B' => anchorY B + r ≤ anchorY B') ∧
      ∀ Bh, (clustersAux r a cur rest).head? = some Bh → anchorY Bh = a := by
  intro rest
  induction rest with
  | nil =>
    intro a cur _ hne hsort hanc hband _ _
    refine ⟨?_, ?_, ?_⟩
    · intro B hB
      simp only [clustersAux, List.mem_singleton] at hB
      subst hB
      exact ⟨hne, hsort, fun p hp => by rw [hanc]; exact hband p hp⟩
    · simp [clustersAux]
    · intro Bh hBh
      simp only [clustersAux, List.head?_cons, Option.some.injEq] at hBh
      subst hBh; exact hanc
  | cons q tl ih =>
    intro a cur hrest hne hsort hanc hband hsep hge
    have hq2 : a ≤ q.2 := hge q (List.mem_cons_self q tl)
    by_cases h : |q.2 - a| < r
    · have hband' : ∀ p ∈ cur ++ [q], a ≤ p.2 ∧ p.2 - a < r := by
        intro p hp
        rcases List.mem_append.1 hp with hp | hp
        · exact hband p hp
        · simp only [List.mem_singleton] at hp; subst hp
          exact ⟨hq2, lt_of_le_of_lt (le_abs_self _) h⟩
      have hsort' : (cur ++ [q]).Sorted yle := by
        refine (List.pairwise_append.2 ⟨hsort, List.sorted_singleton q, ?_⟩ :
          List.Pairwise yle (cur ++ [q]))
        intro p hp b hb
        simp only [List.mem_singleton] at hb
        rw [hb]
        exact hsep p hp q (List.mem_cons_self q tl)
      have hanc' : anchorY (cur ++ [q]) = a := by
        unfold anchorY
        rw [List.head?_append_of_ne_nil _ hne]
        exact hanc
      have hsep' : ∀ p ∈ cur ++ [q], ∀ q' ∈ tl, p.2 ≤ q'.2 := by
        intro p hp q' hq'
        rcases List.mem_append.1 hp with hp | hp
        · exact hsep p hp q' (List.mem_cons_of_mem q hq')
        · simp only [List.mem_singleton] at hp; subst hp
          exact List.rel_of_sorted_cons hrest q' hq'
      have hge' : ∀ q' ∈ tl, a ≤ q'.2 := fun q' hq' => hge q' (List.mem_cons_of_mem q hq')
      have hne' : cur ++ [q] ≠ [] := by simp
      have := ih a (cur ++ [q]) hrest.of_cons hne' hsort' hanc' hband' hsep' hge'
      simpa only [clustersAux, if_pos h] using this
    · have hgap : a + r ≤ q.2 := by
        have habs : |q.2 - a| = q.2 - a := abs_of_nonneg (by linarith)
        rw [habs] at h
        linarith [not_lt.1 h]
      have hsing : ∀ p ∈ [q], q.2 ≤ p.2 ∧ p.2 - q.2 < r := by
        intro p hp
        simp only [List.mem_singleton] at hp; subst hp
        exact ⟨le_refl _, by simpa using hr⟩
      have hsep' : ∀ p ∈ [q], ∀ q' ∈ tl, p.2 ≤ q'.2 := by
        intro p hp q' hq'
        simp only [List.mem_singleton] at hp; subst hp
        exact List.rel_of_sorted_cons hrest q' hq'
      have hge' : ∀ q' ∈ tl, q.2 ≤ q'.2 := fun q' hq' =>
        List.rel_of_sorted_cons hrest q' hq'
      obtain ⟨ihA, ihB, ihC⟩ := ih q.2 [q] hrest.of_cons (by simp)
        (List.sorted_singleton q) rfl hsing hsep' hge'
      have hres : clustersAux r a cur (q :: tl) = cur :: clustersAux r q.2 [q] tl := by
        simp only [clustersAux, if_neg h]
      refine ⟨?_, ?_, ?_⟩
      · intro B hB
        rw [hres] at hB
        rcases List.mem_cons.1 hB with hB | hB
        · subst hB
          exact ⟨hne, hsort, fun p hp => by rw [hanc]; exact hband p hp⟩
        · exact ihA B hB
      · rw [hres]
        refine List.chain'_cons'.2 ⟨?_, ihB⟩
        intro Bh hBh
        rw [ihC Bh hBh, hanc]
        exact hgap
      · intro Bh hBh
        rw [hres] at hBh
        simp only [List.head?_cons, Option.some.injEq] at hBh
        subst hBh; exact hanc

/-- Specialisation of `clustersAux_spec` to `clusters` on a y-sorted list. -/
theorem clusters_spec (r : ℚ) (hr : 0 < r) (ys : List Pt) (hys : ys.Sorted yle) :
    (∀ B ∈ clusters r ys, B ≠ [] ∧ B.Sorted yle ∧
       ∀ p ∈ B, anchorY B ≤ p.2 ∧ p.2 - anchorY B < r) ∧
    (clusters r ys).Chain' (fun B B' => anchorY B + r ≤ anchorY B') := by
  cases ys with
  | nil => exact ⟨by simp [clusters], by simp [clusters]⟩
  | cons p tl =>
    have hband : ∀ q ∈ [p], p.2 ≤ q.2 ∧ q.2 - p.2 < r := by
      intro q hq
      simp only [List.mem_singleton] at hq; subst hq
      exact ⟨le_refl _, by simpa using hr⟩
    have hsep : ∀ q ∈ [p], ∀ q' ∈ tl, q.2 ≤ q'.2 := by
      intro q hq q' hq'
      simp only [List.mem_singleton] at hq; subst hq
      exact List.rel_of_sorted_cons hys q' hq'
    have hge : ∀ q' ∈ tl, p.2 ≤ q'.2 := fun q' hq' => List.rel_of_sorted_cons hys q' hq'
    have h := clustersAux_spec r hr tl p.2 [p] hys.of_cons (by simp)
      (List.sorted_singleton p) rfl hband hsep hge
    exact ⟨h.1, h.2.1⟩

theorem anchors_pairwise {r : ℚ} (hr : 0 < r) {C : List (List Pt)}
    (h : C.Chain' (fun B B' => anchorY B + r ≤ anchorY B')) :
    C.Pairwise (fun B B' => anchorY B + r ≤ anchorY B') := by
  haveI : IsTrans (List Pt) (fun B B' => anchorY B + r ≤ anchorY B') :=
    ⟨fun A B D hab hbd => le_trans hab (le_trans (le_add_of_nonneg_right hr.le) hbd)⟩
  exact List.chain'_iff_pairwise.1 h

theorem blocks_separated {r : ℚ} (hr : 0 < r) {C : List (List Pt)}
    (hgood : ∀ B ∈ C, B ≠ [] ∧ B.Sorted yle ∧
      ∀ p ∈ B, anchorY B ≤ p.2 ∧ p.2 - anchorY B < r)
    (hchain : C.Chain' (fun B B' => anchorY B + r ≤ anchorY B')) :
    C.Pairwise (fun B B' => ∀ p ∈ B, ∀ q ∈ B', p.2 < q.2) := by
  refine (anchors_pairwise hr hchain).imp_of_mem ?_
  intro B B' hB hB' hanch p hp q hq
  have h1 := (hgood B hB).2.2 p hp
  have h2 := (hgood B' hB').2.2 q hq
  linarith [h1.2, h2.1]

theorem list_sum_le_len_mul (l : List ℚ) (c : ℚ) (h : ∀ x ∈ l, x ≤ c) :
    l.sum ≤ (l.length : ℚ) * c := by
  induction l with
  | nil => simp
  | cons a tl ih =>
    simp only [List.sum_cons, List.length_cons]
    push_cast
    have h1 := ih (fun x hx => h x (List.mem_cons_of_mem a hx))
    have h2 := h a (List.mem_cons_self a tl)
    nlinarith

theorem len_mul_le_list_sum (l : List ℚ) (c : ℚ) (h : ∀ x ∈ l, c ≤ x) :
    (l.length : ℚ) * c ≤ l.sum := by
  induction l with
  | nil => simp
  | cons a tl ih =>
    simp only [List.sum_cons, List.length_cons]
    push_cast
    have h1 := ih (fun x hx => h x (List.mem_cons_of_mem a hx))
    have h2 := h a (List.mem_cons_self a tl)
    nlinarith

theorem meanY_le_meanY {B D : List Pt} (hB : B ≠ []) (hD : D ≠ []) (c : ℚ)
    (h1 : ∀ p ∈ B, p.2 ≤ c) (h2 : ∀ q ∈ D, c ≤ q.2) : meanY B ≤ meanY D := by
  have hlB : 0 < ((B.length : ℚ)) := by
    exact_mod_cast List.length_pos.2 hB
  have hlD : 0 < ((D.length : ℚ)) := by
    exact_mod_cast List.length_pos.2 hD
  have hub : meanY B ≤ c := by
    rw [meanY, if_neg hB, div_le_iff₀ hlB]
    have := list_sum_le_len_mul (B.map Prod.snd) c
      (fun x hx => by obtain ⟨p, hp, rfl⟩ := List.mem_map.1 hx; exact h1 p hp)
    simpa [mul_comm] using this
  have hlb : c ≤ meanY D := by
    rw [meanY, if_neg hD, le_div_iff₀ hlD]
    have := len_mul_le_list_sum (D.map Prod.snd) c
      (fun x hx => by obtain ⟨p, hp, rfl⟩ := List.mem_map.1 hx; exact h2 p hp)
    simpa [mul_comm] using this
  exact le_trans hub hlb

theorem meanY_congr_perm {B D : List Pt} (h : List.Perm B D) : meanY B = meanY D := by
  by_cases hB : B = []
  · subst hB
    rw [(List.perm_nil.1 h.symm)]
  · have hD : D ≠ [] := by
      intro hD'
      subst hD'
      exact hB (List.perm_nil.1 h)
    rw [meanY, meanY, if_neg hB, if_neg hD, (h.map Prod.snd).sum_eq, h.length_eq]

/-- On a y-sorted input the produced clusters are already sorted by mean
y, so the cluster sort of the source is the identity. -/
theorem sorted_mley_clusters {r : ℚ} (hr : 0 < r) (ys : List Pt) (hys : ys.Sorted yle) :
    (clusters r ys).Sorted mley := by
  obtain ⟨hgood, hchain⟩ := clusters_spec r hr ys hys
  refine ((anchors_pairwise hr hchain).imp_of_mem ?_ : List.Pairwise mley (clusters r ys))
  intro B B' hB hB' hanch
  have hBg := hgood B hB
  have hB'g := hgood B' hB'
  refine meanY_le_meanY hBg.1 hB'g.1 (anchorY B') ?_ ?_
  · intro p hp
    have := hBg.2.2 p hp
    linarith [this.2]
  · intro q hq
    exact (hB'g.2.2 q hq).1

/-- With a positive tolerance the cluster-mean sort is the identity and
the ordering is the concatenation of the x-sorted row clusters. -/
theorem sort_grid_points_eq_clusters (pts : List Pt) {r : ℚ} (hr : 0 < r) :
    sort_grid_points pts r =
      ((clusters r (pts.insertionSort yle)).map (fun c => c.insertionSort xle)).flatten := by
  cases pts with
  | nil => rfl
  | cons p tl =>
    unfold sort_grid_points
    rw [List.Sorted.insertionSort_eq
      (sorted_mley_clusters hr _ (List.sorted_insertionSort yle _))]

theorem clustersAux_absorb (r a : ℚ) :
    ∀ (D rest cur : List Pt), (∀ p ∈ D, |p.2 - a| < r) →
      clustersAux r a cur (D ++ rest) = clustersAux r a (cur ++ D) rest := by
  intro D
  induction D with
  | nil => intro rest cur _; simp
  | cons p D' ih =>
    intro rest cur h
    have hp := h p (List.mem_cons_self p D')
    simp only [List.cons_append, clustersAux, if_pos hp, List.append_eq]
    rw [ih rest (cur ++ [p]) (fun q hq => h q (List.mem_cons_of_mem p hq))]
    rw [List.append_assoc, List.singleton_append]

/-- Clustering is the identity on a concatenation of nonempty banded
blocks whose anchors are at least `r` apart. -/
theorem clusters_flatten_blocks (r : ℚ) (hr : 0 < r) :
    ∀ (Ds : List (List Pt)),
      (∀ D ∈ Ds, D ≠ [] ∧ ∀ p ∈ D, anchorY D ≤ p.2 ∧ p.2 - anchorY D < r) →
      Ds.Chain' (fun D D' => anchorY D + r ≤ anchorY D') →
      clusters r Ds.flatten = Ds := by
  intro Ds
  induction Ds with
  | nil => intro _ _; rfl
  | cons D Ds' ih =>
    intro hgood hchain
    obtain ⟨hDne, hDband⟩ := hgood D (List.mem_cons_self D Ds')
    obtain ⟨q, D₀, rfl⟩ : ∃ q D₀, D = q :: D₀ := by
      cases D with
      | nil => exact absurd rfl hDne
      | cons q D₀ => exact ⟨q, D₀, rfl⟩
    have hband : ∀ p ∈ D₀, |p.2 - q.2| < r := by
      intro p hp
      have := hDband p (List.mem_cons_of_mem q hp)
      rw [anchorY_cons] at this
      rw [abs_of_nonneg (by linarith [this.1])]
      exact this.2
    have e1 : clusters r ((q :: D₀) ++ Ds'.flatten) =
        clustersAux r q.2 [q] (D₀ ++ Ds'.flatten) := rfl
    have e2 : clustersAux r q.2 [q] (D₀ ++ Ds'.flatten) =
        clustersAux r q.2 (q :: D₀) Ds'.flatten := by
      rw [clustersAux_absorb r q.2 D₀ Ds'.flatten [q] hband, List.singleton_append]
    cases Ds' with
    | nil =>
      rw [List.flatten_cons, e1, e2]
      rfl
    | cons E Ds'' =>
      obtain ⟨hEne, _⟩ := hgood E (List.mem_cons_of_mem _ (List.mem_cons_self E Ds''))
      obtain ⟨q', E₀, rfl⟩ : ∃ q' E₀, E = q' :: E₀ := by
        cases E with
        | nil => exact absurd rfl hEne
        | cons q' E₀ => exact ⟨q', E₀, rfl⟩
      have hrel : q.2 + r ≤ q'.2 := by
        have := (List.chain'_cons.1 hchain).1
        rw [anchorY_cons, anchorY_cons] at this
        exact this
      have hbreak : ¬(|q'.2 - q.2| < r) := by
        rw [abs_of_nonneg (by linarith)]
        linarith
      have e3 : ((q' :: E₀) :: Ds'').flatten = q' :: (E₀ ++ Ds''.flatten) := rfl
      calc clusters r ((q :: D₀) :: (q' :: E₀) :: Ds'').flatten
          = clustersAux r q.2 (q :: D₀) (q' :: (E₀ ++ Ds''.flatten)) := by
            rw [List.flatten_cons, e1, e2, e3]
        _ = (q :: D₀) :: clustersAux r q'.2 [q'] (E₀ ++ Ds''.flatten) := by
            simp only [clustersAux, if_neg hbreak]
        _ = (q :: D₀) :: clusters r ((q' :: E₀) :: Ds'').flatten := by
            rw [e3]
            rfl
        _ = (q :: D₀) :: (q' :: E₀) :: Ds'' := by
            rw [ih (fun B hB => hgood B (List.mem_cons_of_mem _ hB)) hchain.tail]

theorem anchorY_eq_of_perm_sorted {B D : List Pt} (hB : B.Sorted yle) (hD : D.Sorted yle)
    (hperm : List.Perm B D) : anchorY B = anchorY D := by
  cases B with
  | nil =>
    rw [List.perm_nil.1 hperm.symm]
  | cons b B' =>
    cases D with
    | nil => exact absurd (List.perm_nil.1 hperm) (by simp)
    | cons d D' =>
      have hbD : b ∈ d :: D' := hperm.mem_iff.1 (List.mem_cons_self b B')
      have hdB : d ∈ b :: B' := hperm.mem_iff.2 (List.mem_cons_self d D')
      rw [anchorY_cons, anchorY_cons]
      exact le_antisymm (head_min_of_sorted hB hdB) (head_min_of_sorted hD hbD)

/-- For every positive tolerance, PointOrdering is idempotent. -/
theorem sort_grid_points_idem (pts : List Pt) {r : ℚ} (hr : 0 < r) :
    sort_grid_points (sort_grid_points pts r) r = sort_grid_points pts r := by
  have hys : (pts.insertionSort yle).Sorted yle := List.sorted_insertionSort yle pts
  obtain ⟨hgood, hchain⟩ := clusters_spec r hr _ hys
  have hsepPt := blocks_separated hr hgood hchain
  set C := clusters r (pts.insertionSort yle) with hC
  have h1 : sort_grid_points pts r = (C.map (fun c => c.insertionSort xle)).flatten :=
    sort_grid_points_eq_clusters pts hr
  have hsepX : (C.map (fun c => c.insertionSort xle)).Pairwise
      (fun B B' => ∀ x ∈ B, ∀ y ∈ B', yle x y) := by
    rw [List.pairwise_map]
    refine hsepPt.imp_of_mem ?_
    intro B B' hB hB' hlt x hx y hy
    exact le_of_lt (hlt x ((List.mem_insertionSort xle).1 hx) y
      ((List.mem_insertionSort xle).1 hy))
  have hY : (sort_grid_points pts r).insertionSort yle =
      (C.map (fun B => (B.insertionSort xle).insertionSort yle)).flatten := by
    rw [h1, insertionSort_flatten yle _ hsepX, List.map_map]
    rfl
  have hanch : ∀ B ∈ C, anchorY ((B.insertionSort xle).insertionSort yle) = anchorY B := by
    intro B hB
    exact (anchorY_eq_of_perm_sorted (hgood B hB).2.1 (List.sorted_insertionSort yle _)
      ((List.perm_insertionSort xle B).symm.trans (List.perm_insertionSort yle _).symm)).symm
  have hgood2 : ∀ D ∈ C.map (fun B => (B.insertionSort xle).insertionSort yle),
      D ≠ [] ∧ ∀ p ∈ D, anchorY D ≤ p.2 ∧ p.2 - anchorY D < r := by
    intro D hD
    obtain ⟨B, hB, rfl⟩ := List.mem_map.1 hD
    have hperm : List.Perm ((B.insertionSort xle).insertionSort yle) B :=
      (List.perm_insertionSort yle _).trans (List.perm_insertionSort xle B)
    constructor
    · intro hnil
      rw [hnil] at hperm
      exact (hgood B hB).1 (List.perm_nil.1 hperm.symm)
    · intro p hp
      rw [hanch B hB]
      exact (hgood B hB).2.2 p (hperm.mem_iff.1 hp)
  have hchain2 : (C.map (fun B => (B.insertionSort xle).insertionSort yle)).Chain'
      (fun D D' => anchorY D + r ≤ anchorY D') := by
    refine List.Pairwise.chain' ?_
    rw [List.pairwise_map]
    refine (anchors_pairwise hr hchain).imp_of_mem ?_
    intro B B' hB hB' hle
    rw [hanch B hB, hanch B' hB']
    exact hle
  have hre : clusters r ((sort_grid_points pts r).insertionSort yle) =
      C.map (fun B => (B.insertionSort xle).insertionSort yle) := by
    rw [hY]
    exact clusters_flatten_blocks r hr _ hgood2 hchain2
  rw [sort_grid_points_eq_clusters (sort_grid_points pts r) hr, hre, List.map_map, h1]
  refine congrArg List.flatten (List.map_congr_left ?_)
  intro B hB
  exact sortX_sortY_sortX (hgood B hB).2.1

/-- Membership-in-tolerance of a run relative to its first point, as
claim C9 words it. -/
def runWithinFirst (r : ℚ) (l : List Pt) : Prop := ∀ q ∈ l, |q.2 - anchorY l| < r

/-- Claim C9 (counterexample to the monotone-run half): on the input
(10,40), (20,0), (1,55) with tolerance 50 the produced ordering is
(10,40), (20,0), (1,55); the whole output is a maximal run whose y values
are all within 50 of the first point's y (40), yet x is not non-decreasing
along it (20 is followed by 1).  The idempotence half is unaffected. -/
theorem C9_counterexample :
    sort_grid_points [(10, 40), (20, 0), (1, 55)] 50 = [(10, 40), (20, 0), (1, 55)] ∧
    runWithinFirst 50 (sort_grid_points [(10, 40), (20, 0), (1, 55)] 50) ∧
    ¬ List.Chain' xle (sort_grid_points [(10, 40), (20, 0), (1, 55)] 50) := by
  have h : sort_grid_points [(10, 40), (20, 0), (1, 55)] 50 =
      [(10, 40), (20, 0), (1, 55)] := by
    norm_num [sort_grid_points, clusters, clustersAux, meanY, mley, yle, xle, List.cons_ne_nil,
      List.insertionSort, List.orderedInsert]
  refine ⟨h, ?_, ?_⟩
  · rw [h]
    intro q hq
    rw [anchorY_cons]
    fin_cases hq <;> norm_num
  · rw [h]
    intro hcontra
    have := (List.chain'_cons.1 (hcontra.tail)).1
    rw [xle] at this
    norm_num at this

/-- Claim C9 (amended): for every positive row tolerance, PointOrdering is
idempotent; and the cluster-mean sort is the identity, so the output is
the concatenation of the produced row-clusters each ordered with x
non-decreasing (the within-tolerance-of-first-point "maximal run" version
of the monotonicity fails, see the counterexample). -/
theorem C9_sort_grid_points_idempotent :
    ∀ (pts : List Pt) (r : ℚ), 0 < r →
      sort_grid_points (sort_grid_points pts r) r = sort_grid_points pts r ∧
      sort_grid_points pts r =
        ((clusters r (pts.insertionSort yle)).map (fun c => c.insertionSort xle)).flatten ∧
      ∀ B ∈ clusters r (pts.insertionSort yle), List.Chain' xle (B.insertionSort xle) := by
  intro pts r hr
  refine ⟨sort_grid_points_idem pts hr, sort_grid_points_eq_clusters pts hr, ?_⟩
  intro B _
  exact (List.sorted_insertionSort xle B).chain'

/-- Witness for `C9_sort_grid_points_idempotent` at tolerance 50 on a
concrete three-point input. -/
theorem C9_witness :
    (0:ℚ) < 50 ∧
    sort_grid_points (sort_grid_points [(10, 40), (20, 0), (1, 55)] 50) 50 =
      sort_grid_points [(10, 40), (20, 0), (1, 55)] 50 :=
  ⟨by norm_num,
    (C9_sort_grid_points_idempotent [(10, 40), (20, 0), (1, 55)] 50 (by norm_num)).1⟩

/-- Score-descending comparison for
`points_scores.sort(key=lambda x: x[2], reverse=True)` (src line 789); a
stable sort with this relation keeps the original order of equal scores,
as Python's `list.sort` does. -/
def sge (a b : ℕ × ℕ × ℚ) : Prop := b.2.2 ≤ a.2.2

instance : DecidableRel sge := fun a b => inferInstanceAs (Decidable (b.2.2 ≤ a.2.2))

instance : IsTotal (ℕ × ℕ × ℚ) sge := ⟨fun a b => le_total b.2.2 a.2.2⟩

instance : IsTrans (ℕ × ℕ × ℚ) sge := ⟨fun _ _ _ h h' => le_trans h' h⟩

/-- Suppression radius of `tm_task` (src line 841):
`nms_distance = min(w, h) // 2`. -/
def nms_distance (w h : ℕ) : ℕ := min w h / 2

/-- Candidate extraction of `apply_nms_manual` (src lines 785-786):
`np.where(res >= threshold)` enumerates the score surface in row-major
order, and `zip(loc[1], loc[0], res[...])` yields (x, y, score). -/
def nmsCandidates (res : List (List ℚ)) (τ : ℚ) : List (ℕ × ℕ × ℚ) :=
  res.enum.flatMap (fun yr => yr.2.enum.filterMap (fun xs =>
    if τ ≤ xs.2 then some (xs.1, yr.1, xs.2) else none))

/-- Greedy suppression loop of `apply_nms_manual` (src lines 791-799):
pop the highest-scoring candidate, keep its position, and retain only the
candidates farther than `nms` away on at least one axis. -/
def nmsLoop (nms : ℕ) : List (ℕ × ℕ × ℚ) → List (ℕ × ℕ)
  | [] => []
  | best :: rest =>
    (best.1, best.2.1) ::
      nmsLoop nms (rest.filter (fun c =>
        decide (nms < Nat.dist c.1 best.1 ∨ nms < Nat.dist c.2.1 best.2.1)))
termination_by l => l.length
decreasing_by
  simp only [List.length_cons]
  exact Nat.lt_succ_of_le (List.length_filter_le _ rest)

/-- MarkerLocator suppression `apply_nms_manual` (src lines 781-800):
threshold the score surface, sort candidates by score descending (stable),
then run the greedy loop. -/
def apply_nms_manual (res : List (List ℚ)) (τ : ℚ) (nms : ℕ) : List (ℕ × ℕ) :=
  nmsLoop nms ((nmsCandidates res τ).insertionSort sge)

theorem nmsLoop_mem (nms : ℕ) :
    ∀ (n : ℕ) (l : List (ℕ × ℕ × ℚ)), l.length ≤ n →
      ∀ p ∈ nmsLoop nms l, ∃ c ∈ l, (c.1, c.2.1) = p := by
  intro n
  induction n with
  | zero =>
    intro l hl p hp
    rw [List.length_eq_zero.1 (Nat.le_zero.1 hl)] at hp
    simp [nmsLoop] at hp
  | succ n ih =>
    intro l hl p hp
    cases l with
    | nil => simp [nmsLoop] at hp
    | cons best rest =>
      rw [nmsLoop] at hp
      rcases List.mem_cons.1 hp with h | h
      · exact ⟨best, List.mem_cons_self best rest, h.symm⟩
      · obtain ⟨c, hc, hcp⟩ := ih _
          (le_trans (List.length_filter_le _ rest) (Nat.succ_le_succ_iff.1 hl)) p h
        exact ⟨c, List.mem_cons_of_mem _ (List.mem_of_mem_filter hc), hcp⟩

theorem nmsLoop_pairwise (nms : ℕ) :
    ∀ (n : ℕ) (l : List (ℕ × ℕ × ℚ)), l.length ≤ n →
      (nmsLoop nms l).Pairwise
        (fun p q => nms < max (Nat.dist p.1 q.1) (Nat.dist p.2 q.2)) := by
  intro n
  induction n with
  | zero =>
    intro l hl
    rw [List.length_eq_zero.1 (Nat.le_zero.1 hl)]
    simp [nmsLoop]
  | succ n ih =>
    intro l hl
    cases l with
    | nil => simp [nmsLoop]
    | cons best rest =>
      rw [nmsLoop]
      have hlen : (rest.filter (fun c =>
          decide (nms < Nat.dist c.1 best.1 ∨ nms < Nat.dist c.2.1 best.2.1))).length ≤ n :=
        le_trans (List.length_filter_le _ rest) (Nat.succ_le_succ_iff.1 hl)
      refine List.pairwise_cons.2 ⟨?_, ih _ hlen⟩
      intro q hq
      obtain ⟨c, hc, rfl⟩ := nmsLoop_mem nms n _ hlen q hq
      have hcond := List.of_mem_filter hc
      rw [decide_eq_true_eq] at hcond
      rcases hcond with h' | h'
      · exact lt_max_of_lt_left (by rwa [Nat.dist_comm] at h')
      · exact lt_max_of_lt_right (by rwa [Nat.dist_comm] at h')

/-- Claim C4: for every score surface, threshold and template size, every
pair of kept Markers is separated by more than `nms_distance` in
Chebyshev distance, where `nms_distance w h = min w h / 2` (integer
floor division, as in `tm_task` line 841). -/
theorem C4_nms_separation :
    (∀ (res : List (List ℚ)) (τ : ℚ) (w h : ℕ),
      (apply_nms_manual res τ (nms_distance w h)).Pairwise
        (fun p q => nms_distance w h < max (Nat.dist p.1 q.1) (Nat.dist p.2 q.2))) ∧
    ∀ w h : ℕ, nms_distance w h = min w h / 2 := by
  refine ⟨?_, fun _ _ => rfl⟩
  intro res τ w h
  exact nmsLoop_pairwise (nms_distance w h) _ _ (le_refl _)

/-- Claim C5: the suppression is greedy by descending score — it keeps the
head of the score-sorted candidate list and discards a remaining candidate
iff |Δx| ≤ nms AND |Δy| ≤ nms relative to the kept one; on two candidates
at the same position with scores 0.9 and 0.7 and nms = 10, exactly one
Marker is returned, at the higher-scoring candidate's position. -/
theorem C5_nms_greedy_descending :
    (∀ (nms : ℕ) (best : ℕ × ℕ × ℚ) (rest : List (ℕ × ℕ × ℚ)),
      nmsLoop nms (best :: rest) = (best.1, best.2.1) ::
        nmsLoop nms (rest.filter (fun c =>
          decide (¬(Nat.dist c.1 best.1 ≤ nms ∧ Nat.dist c.2.1 best.2.1 ≤ nms))))) ∧
    (∀ (res : List (List ℚ)) (τ : ℚ) (nms : ℕ),
      apply_nms_manual res τ nms = nmsLoop nms ((nmsCandidates res τ).insertionSort sge)) ∧
    nmsLoop 10 ([(5, 5, (9:ℚ)/10), (5, 5, (7:ℚ)/10)].insertionSort sge) = [(5, 5)] := by
  refine ⟨?_, fun _ _ _ => rfl, ?_⟩
  · intro nms best rest
    rw [nmsLoop]
    congr 1
    congr 1
    refine List.filter_congr ?_
    intro c _
    rw [decide_eq_decide]
    omega
  · have hsort : [(5, 5, (9:ℚ)/10), (5, 5, (7:ℚ)/10)].insertionSort sge =
        [(5, 5, (9:ℚ)/10), (5, 5, (7:ℚ)/10)] := by
      norm_num [List.insertionSort, List.orderedInsert, sge]
    rw [hsort, nmsLoop]
    norm_num [nmsLoop, Nat.dist]

/-- Exact rational value of the IEEE-754 double `np.pi` used by the
circularity formula of `ce_task` (src line 1002). -/
def npPi : ℚ := 884279719003555 / 281474976710656

/-- Truncation toward zero: the semantics of Python's `int()` conversion
applied to the centroid quotients `M["m10"]/M["m00"]` (src lines
1008-1009); floor for nonnegative values, ceiling for negative ones. -/
def pyTrunc (q : ℚ) : ℤ := if 0 ≤ q then ⌊q⌋ else ⌈q⌉

/-- Data of one contour as consumed by `ce_task` (src lines 997-1013):
`cv2.contourArea`, the closed `cv2.arcLength` perimeter, and the image
moments m00, m10, m01 from `cv2.moments`. -/
structure Contour where
  area : ℚ
  perimeter : ℚ
  m00 : ℚ
  m10 : ℚ
  m01 : ℚ

/-- Per-contour centroid computation of `ce_task` (src lines 997-1013):
skip a zero-perimeter contour, keep the contour when area and circularity
4·π·area/perimeter² strictly exceed their thresholds, skip on zero moment
mass, and report the `int()`-truncated centroid translated by the window
corner (x1, y1). -/
def ceContourCenter (aMin cMin : ℚ) (x1 y1 : ℤ) (c : Contour) : Option (ℤ × ℤ) :=
  if c.perimeter = 0 then none
  else
    if aMin < c.area ∧ cMin < 4 * npPi * c.area / (c.perimeter * c.perimeter) then
      if c.m00 ≠ 0 then
        some (x1 + pyTrunc (c.m10 / c.m00), y1 + pyTrunc (c.m01 / c.m00))
      else none
    else none

theorem pyTrunc_close (q : ℚ) : |((pyTrunc q : ℤ) : ℚ) - q| < 1 := by
  unfold pyTrunc
  by_cases h : 0 ≤ q
  · rw [if_pos h, abs_lt]
    constructor <;>
      linarith [Int.floor_le q, Int.lt_floor_add_one q]
  · rw [if_neg h, abs_lt]
    constructor <;>
      linarith [Int.le_ceil q, Int.ceil_lt_add_one q]

/-- Claim C2 (counterexample): a contour with area 100, perimeter 36
(circularity ≈ 0.97) and moments m00 = 2, m10 = 7, m01 = 4 passes the
thresholds a_min = 50, c_min = 1/2, and its exact centroid is
(3.5, 2); `ce_task` reports the truncated (3, 2), not the fractional
sub-pixel value. -/
theorem C2_counterexample :
    ceContourCenter 50 (1/2) 0 0 ⟨100, 36, 2, 7, 4⟩ = some (3, 2) ∧
    ((3:ℚ) ≠ (0:ℚ) + 7/2) := by
  constructor
  · rw [ceContourCenter]
    rw [if_neg (by norm_num : ¬((⟨100, 36, 2, 7, 4⟩ : Contour).perimeter = 0))]
    rw [if_pos (by constructor <;> norm_num [npPi])]
    rw [if_pos (by norm_num)]
    have h1 : pyTrunc ((⟨100, 36, 2, 7, 4⟩ : Contour).m10 / (⟨100, 36, 2, 7, 4⟩ : Contour).m00)
        = 3 := by
      show pyTrunc ((7:ℚ)/2) = 3
      rw [pyTrunc, if_pos (by norm_num)]
      norm_num [Int.floor_eq_iff]
    have h2 : pyTrunc ((⟨100, 36, 2, 7, 4⟩ : Contour).m01 / (⟨100, 36, 2, 7, 4⟩ : Contour).m00)
        = 2 := by
      show pyTrunc ((4:ℚ)/2) = 2
      rw [pyTrunc, if_pos (by norm_num)]
      norm_num
    rw [h1, h2]
    norm_num
  · norm_num

/-- Claim C2 (amended): for every contour passing the area and circularity
thresholds with nonzero moment mass, the reported center is the
`int()`-truncated image-moment centroid translated to full-image
coordinates; it lies strictly within one pixel of the exact fractional
centroid in each coordinate, but it is an integer pixel position, not the
exact sub-pixel value. -/
theorem C2_centroid_truncated (aMin cMin : ℚ) (x1 y1 : ℤ) (c : Contour)
    (hp : c.perimeter ≠ 0) (ha : aMin < c.area)
    (hc : cMin < 4 * npPi * c.area / (c.perimeter * c.perimeter))
    (hm : c.m00 ≠ 0) :
    ceContourCenter aMin cMin x1 y1 c =
      some (x1 + pyTrunc (c.m10 / c.m00), y1 + pyTrunc (c.m01 / c.m00)) ∧
    |((x1 + pyTrunc (c.m10 / c.m00) : ℤ) : ℚ) - ((x1 : ℚ) + c.m10 / c.m00)| < 1 ∧
    |((y1 + pyTrunc (c.m01 / c.m00) : ℤ) : ℚ) - ((y1 : ℚ) + c.m01 / c.m00)| < 1 := by
  refine ⟨?_, ?_, ?_⟩
  · rw [ceContourCenter, if_neg (by simpa using hp), if_pos ⟨ha, hc⟩, if_pos hm]
  · have := pyTrunc_close (c.m10 / c.m00)
    push_cast
    rw [show ((x1 : ℚ) + ((pyTrunc (c.m10 / c.m00) : ℤ) : ℚ)) - ((x1 : ℚ) + c.m10 / c.m00) =
      ((pyTrunc (c.m10 / c.m00) : ℤ) : ℚ) - c.m10 / c.m00 by ring]
    exact this
  · have := pyTrunc_close (c.m01 / c.m00)
    push_cast
    rw [show ((y1 : ℚ) + ((pyTrunc (c.m01 / c.m00) : ℤ) : ℚ)) - ((y1 : ℚ) + c.m01 / c.m00) =
      ((pyTrunc (c.m01 / c.m00) : ℤ) : ℚ) - c.m01 / c.m00 by ring]
    exact this

/-- Witness for `C2_centroid_truncated` at the concrete passing contour
with area 100, perimeter 36 and moments (2, 7, 4). -/
theorem C2_witness :
    ((⟨100, 36, 2, 7, 4⟩ : Contour).perimeter ≠ 0) ∧ ((50:ℚ) < 100) ∧
    ceContourCenter 50 (1/2) 0 0 ⟨100, 36, 2, 7, 4⟩ =
      some (0 + pyTrunc ((⟨100, 36, 2, 7, 4⟩ : Contour).m10 /
              (⟨100, 36, 2, 7, 4⟩ : Contour).m00),
            0 + pyTrunc ((⟨100, 36, 2, 7, 4⟩ : Contour).m01 /
              (⟨100, 36, 2, 7, 4⟩ : Contour).m00)) :=
  ⟨by norm_num, by norm_num,
   (C2_centroid_truncated 50 (1/2) 0 0 ⟨100, 36, 2, 7, 4⟩ (by norm_num) (by norm_num)
     (by norm_num [npPi]) (by norm_num)).1⟩

/-- Squared Euclidean distance between integer centroids; the source's
`cdist(...) < 5.0` comparison is equivalent to squared distance `< 25`. -/
def distSqZ (p q : ℤ × ℤ) : ℤ := (p.1 - q.1) * (p.1 - q.1) + (p.2 - q.2) * (p.2 - q.2)

/-- Centroid deduplication of `ce_task` (src lines 1015-1032): scan the
aggregated list in original order; each candidate still kept removes every
later candidate strictly within 5.0 pixel units of it. -/
def ceDedup : List (ℤ × ℤ) → List (ℤ × ℤ)
  | [] => []
  | p :: rest => p :: ceDedup (rest.filter (fun q => decide (25 ≤ distSqZ p q)))
termination_by l => l.length
decreasing_by
  simp only [List.length_cons]
  exact Nat.lt_succ_of_le (List.length_filter_le _ rest)

theorem ceDedup_spec (n : ℕ) :
    ∀ (l : List (ℤ × ℤ)), l.length ≤ n →
      (ceDedup l).Sublist l ∧
      (ceDedup l).Pairwise (fun p q => 25 ≤ distSqZ p q) ∧
      ∀ q ∈ l, q ∈ ceDedup l ∨ ∃ p ∈ ceDedup l, distSqZ p q < 25 := by
  induction n with
  | zero =>
    intro l hl
    rw [List.length_eq_zero.1 (Nat.le_zero.1 hl)]
    exact ⟨by simp [ceDedup], by simp [ceDedup], by simp⟩
  | succ n ih =>
    intro l hl
    cases l with
    | nil => exact ⟨by simp [ceDedup], by simp [ceDedup], by simp⟩
    | cons p rest =>
      have hlen : (rest.filter (fun q => decide (25 ≤ distSqZ p q))).length ≤ n :=
        le_trans (List.length_filter_le _ rest) (Nat.succ_le_succ_iff.1 hl)
      obtain ⟨ihS, ihP, ihC⟩ := ih _ hlen
      rw [ceDedup]
      refine ⟨?_, ?_, ?_⟩
      · exact List.Sublist.cons₂ p (ihS.trans (List.filter_sublist rest))
      · refine List.pairwise_cons.2 ⟨?_, ihP⟩
        intro q hq
        have hqf := ihS.subset hq
        have := List.of_mem_filter hqf
        rwa [decide_eq_true_eq] at this
      · intro q hq
        rcases List.mem_cons.1 hq with h | h
        · subst h
          exact Or.inl (List.mem_cons_self q _)
        · by_cases hd : 25 ≤ distSqZ p q
          · have hqf : q ∈ rest.filter (fun q => decide (25 ≤ distSqZ p q)) :=
              List.mem_filter.2 ⟨h, by rwa [decide_eq_true_eq]⟩
            rcases ihC q hqf with h' | ⟨p', hp', hd'⟩
            · exact Or.inl (List.mem_cons_of_mem _ h')
            · exact Or.inr ⟨p', List.mem_cons_of_mem _ hp', hd'⟩
          · exact Or.inr ⟨p, List.mem_cons_self p _, lt_of_not_le hd⟩

/-- Claim C6: the deduplication scans in original order and removes, for
each surviving candidate, every later candidate strictly within 5.0
pixel units; the survivors are a subsequence of the input, every two
survivors are at least 5.0 apart (squared distance ≥ 25), and every input
point is either kept or within 5.0 of an earlier surviving point. -/
theorem C6_ce_dedup :
    ∀ l : List (ℤ × ℤ),
      (ceDedup l).Sublist l ∧
      (ceDedup l).Pairwise (fun p q => 25 ≤ distSqZ p q) ∧
      ∀ q ∈ l, q ∈ ceDedup l ∨ ∃ p ∈ ceDedup l, distSqZ p q < 25 :=
  fun l => ceDedup_spec l.length l (le_refl _)

/-- Witness for `C6_ce_dedup` on the concrete list (0,0), (3,0), (10,0):
the survivors are (0,0) and (10,0), and the removed (3,0) is within 5.0
of the earlier survivor (0,0). -/
theorem C6_witness :
    ceDedup [((0:ℤ), (0:ℤ)), (3, 0), (10, 0)] = [(0, 0), (10, 0)] ∧
    ((3, 0) ∈ ceDedup [((0:ℤ), (0:ℤ)), (3, 0), (10, 0)] ∨
      ∃ p ∈ ceDedup [((0:ℤ), (0:ℤ)), (3, 0), (10, 0)], distSqZ p (3, 0) < 25) := by
  refine ⟨?_, ?_⟩
  · rw [ceDedup]
    norm_num [distSqZ, ceDedup]
  · exact (C6_ce_dedup [((0:ℤ), (0:ℤ)), (3, 0), (10, 0)]).2.2 (3, 0) (by norm_num)

/-- An affine transform as a 2×3 matrix (a b c; d e f) mapping pixel
(x, y) to real (a·x + b·y + c, d·x + e·y + f). -/
structure AffineT where
  a : ℚ
  b : ℚ
  c : ℚ
  d : ℚ
  e : ℚ
  f : ℚ
deriving DecidableEq

/-- Application of an affine transform to one pixel point, the homogeneous
multiplication `np.dot(pixel_coords_homogeneous, transform_matrix.T)` of
src lines 1267-1269. -/
def applyAffine (T : AffineT) (p : ℚ × ℚ) : ℚ × ℚ :=
  (T.a * p.1 + T.b * p.2 + T.c, T.d * p.1 + T.e * p.2 + T.f)

/-- Collinearity of the three control pixel points: the determinant of the
difference vectors vanishes. -/
def collinear (p₁ p₂ p₃ : ℚ × ℚ) : Prop :=
  (p₂.1 - p₁.1) * (p₃.2 - p₁.2) - (p₃.1 - p₁.1) * (p₂.2 - p₁.2) = 0

/-- Closed-form three-point affine solve (Cramer's rule on the difference
system); only meaningful when the pixel points are not collinear. -/
def affineSolve (p₁ p₂ p₃ r₁ r₂ r₃ : ℚ × ℚ) : AffineT :=
  { a := ((r₂.1 - r₁.1) * (p₃.2 - p₁.2) - (r₃.1 - r₁.1) * (p₂.2 - p₁.2)) /
         ((p₂.1 - p₁.1) * (p₃.2 - p₁.2) - (p₃.1 - p₁.1) * (p₂.2 - p₁.2))
    b := ((p₂.1 - p₁.1) * (r₃.1 - r₁.1) - (r₂.1 - r₁.1) * (p₃.1 - p₁.1)) /
         ((p₂.1 - p₁.1) * (p₃.2 - p₁.2) - (p₃.1 - p₁.1) * (p₂.2 - p₁.2))
    c := r₁.1 -
         ((r₂.1 - r₁.1) * (p₃.2 - p₁.2) - (r₃.1 - r₁.1) * (p₂.2 - p₁.2)) /
         ((p₂.1 - p₁.1) * (p₃.2 - p₁.2) - (p₃.1 - p₁.1) * (p₂.2 - p₁.2)) * p₁.1 -
         ((p₂.1 - p₁.1) * (r₃.1 - r₁.1) - (r₂.1 - r₁.1) * (p₃.1 - p₁.1)) /
         ((p₂.1 - p₁.1) * (p₃.2 - p₁.2) - (p₃.1 - p₁.1) * (p₂.2 - p₁.2)) * p₁.2
    d := ((r₂.2 - r₁.2) * (p₃.2 - p₁.2) - (r₃.2 - r₁.2) * (p₂.2 - p₁.2)) /
         ((p₂.1 - p₁.1) * (p₃.2 - p₁.2) - (p₃.1 - p₁.1) * (p₂.2 - p₁.2))
    e := ((p₂.1 - p₁.1) * (r₃.2 - r₁.2) - (r₂.2 - r₁.2) * (p₃.1 - p₁.1)) /
         ((p₂.1 - p₁.1) * (p₃.2 - p₁.2) - (p₃.1 - p₁.1) * (p₂.2 - p₁.2))
    f := r₁.2 -
         ((r₂.2 - r₁.2) * (p₃.2 - p₁.2) - (r₃.2 - r₁.2) * (p₂.2 - p₁.2)) /
         ((p₂.1 - p₁.1) * (p₃.2 - p₁.2) - (p₃.1 - p₁.1) * (p₂.2 - p₁.2)) * p₁.1 -
         ((p₂.1 - p₁.1) * (r₃.2 - r₁.2) - (r₂.2 - r₁.2) * (p₃.1 - p₁.1)) /
         ((p₂.1 - p₁.1) * (p₃.2 - p₁.2) - (p₃.1 - p₁.1) * (p₂.2 - p₁.2)) * p₁.2 }

/-- Modelled from the spec: `cv2.getAffineTransform` (the external solver
called at src line 1265) is not part of this repository.  Following §4.3
of the specification it is the closed-form solve of the unique affine map
through the three pixel→real correspondences, and it fails — an exception
that `ct_task` catches as a computation error (src line 1272) — when the
three pixel points are collinear; `none` models that failure. -/
def getAffineTransform (p₁ p₂ p₃ r₁ r₂ r₃ : ℚ × ℚ) : Option AffineT :=
  if (p₂.1 - p₁.1) * (p₃.2 - p₁.2) - (p₃.1 - p₁.1) * (p₂.2 - p₁.2) = 0 then none
  else some (affineSolve p₁ p₂ p₃ r₁ r₂ r₃)

/-- Result of a coordinate-transformation run: a tagged error (the
`{"error": ...}` dictionary of src line 1276, carrying no transform) or
the list of transformed real coordinates. -/
inductive CTResult where
  | error : CTResult
  | ok : List (ℚ × ℚ) → CTResult
deriving DecidableEq

/-- Coordinate-transformation task `ct_task` (src lines 1249-1276): an
empty center list returns an empty ok result before any transform is
computed; otherwise the affine solve runs — its failure is caught and
tagged as an error — and on success every center is mapped through the
transform. -/
def ct_task (pixelCoords : List (ℚ × ℚ)) (cp₁ cp₂ cp₃ cr₁ cr₂ cr₃ : ℚ × ℚ) : CTResult :=
  if pixelCoords = [] then CTResult.ok []
  else
    match getAffineTransform cp₁ cp₂ cp₃ cr₁ cr₂ cr₃ with
    | none => CTResult.error
    | some T => CTResult.ok (pixelCoords.map (applyAffine T))

/-- Control-point validation of `run_coordinate_transformation` (src
lines 1205-1241): each of the three table rows must hold a pixel and a
real coordinate (`none` models a missing/unset row); with fewer than
three valid rows the run stops with an error and `ct_task` never
starts. -/
def run_coordinate_transformation
    (row₁ row₂ row₃ : Option ((ℚ × ℚ) × (ℚ × ℚ)))
    (pixelCoords : List (ℚ × ℚ)) : CTResult :=
  match row₁, row₂, row₃ with
  | some v₁, some v₂, some v₃ => ct_task pixelCoords v₁.1 v₂.1 v₃.1 v₁.2 v₂.2 v₃.2
  | _, _, _ => CTResult.error

theorem affineSolve_exact {p₁ p₂ p₃ : ℚ × ℚ} (r₁ r₂ r₃ : ℚ × ℚ)
    (h : ¬ collinear p₁ p₂ p₃) :
    applyAffine (affineSolve p₁ p₂ p₃ r₁ r₂ r₃) p₁ = r₁ ∧
    applyAffine (affineSolve p₁ p₂ p₃ r₁ r₂ r₃) p₂ = r₂ ∧
    applyAffine (affineSolve p₁ p₂ p₃ r₁ r₂ r₃) p₃ = r₃ := by
  have hdd : (p₂.1 - p₁.1) * (p₃.2 - p₁.2) - (p₃.1 - p₁.1) * (p₂.2 - p₁.2) ≠ 0 := h
  refine ⟨?_, ?_, ?_⟩ <;>
  · refine Prod.ext ?_ ?_ <;>
    · simp only [applyAffine, affineSolve]
      field_simp
      try ring

/-- Claim C7: for every three non-collinear control pixel points and any
real targets the affine solve succeeds and maps each control pixel
exactly onto its real coordinate (the arithmetic is exact, hence well
within the claimed 1e-4 relative tolerance); and Scenario C holds:
pixels (0,0), (100,0), (0,100) mapped to reals (0,0), (1,0), (0,1) send
the pixel (50,50) to the real point (1/2, 1/2). -/
theorem C7_affine_roundtrip :
    (∀ p₁ p₂ p₃ r₁ r₂ r₃ : ℚ × ℚ, ¬ collinear p₁ p₂ p₃ →
      ∃ T, getAffineTransform p₁ p₂ p₃ r₁ r₂ r₃ = some T ∧
        applyAffine T p₁ = r₁ ∧ applyAffine T p₂ = r₂ ∧ applyAffine T p₃ = r₃) ∧
    (∃ T, getAffineTransform (0, 0) (100, 0) (0, 100) (0, 0) (1, 0) (0, 1) = some T ∧
      applyAffine T (50, 50) = (1/2, 1/2)) := by
  constructor
  · intro p₁ p₂ p₃ r₁ r₂ r₃ h
    refine ⟨affineSolve p₁ p₂ p₃ r₁ r₂ r₃, ?_, affineSolve_exact r₁ r₂ r₃ h⟩
    unfold collinear at h
    rw [getAffineTransform, if_neg h]
  · refine ⟨affineSolve (0, 0) (100, 0) (0, 100) (0, 0) (1, 0) (0, 1), ?_, ?_⟩
    · rw [getAffineTransform, if_neg (by norm_num)]
    · norm_num [applyAffine, affineSolve]

/-- Witness for `C7_affine_roundtrip` on the Scenario C control points. -/
theorem C7_witness :
    ¬ collinear ((0:ℚ), (0:ℚ)) (100, 0) (0, 100) ∧
    ∃ T, getAffineTransform (0, 0) (100, 0) (0, 100) (0, 0) (1, 0) (0, 1) = some T ∧
      applyAffine T (0, 0) = (0, 0) ∧ applyAffine T (100, 0) = (1, 0) ∧
      applyAffine T (0, 100) = (0, 1) :=
  ⟨by norm_num [collinear],
    C7_affine_roundtrip.1 (0, 0) (100, 0) (0, 100) (0, 0) (1, 0) (0, 1)
      (by norm_num [collinear])⟩

/-- Claim C8 (counterexample): with collinear control pixels (0,0), (1,1),
(2,2) and an empty center list, the run returns the empty ok result — the
empty-input early return of src line 1260 precedes the affine solve — and
not the computation error the claim requires for collinear controls. -/
theorem C8_counterexample :
    run_coordinate_transformation (some ((0, 0), (0, 0))) (some ((1, 1), (1, 0)))
      (some ((2, 2), (0, 1))) [] = CTResult.ok [] ∧
    CTResult.ok ([] : List (ℚ × ℚ)) ≠ CTResult.error := by
  exact ⟨rfl, by simp⟩

/-- Claim C8 (amended): CoordinateMapper fails with a tagged error result
carrying no transform when any control row is missing/unset, or when the
control pixels are collinear and there is at least one center to
transform; an empty center list yields the empty ok output — even with
collinear controls, since the empty-input return precedes the solve. -/
theorem C8_ct_error_handling :
    (∀ (v₁ v₂ v₃ : (ℚ × ℚ) × (ℚ × ℚ)) (pcs : List (ℚ × ℚ)),
      collinear v₁.1 v₂.1 v₃.1 → pcs ≠ [] →
      run_coordinate_transformation (some v₁) (some v₂) (some v₃) pcs = CTResult.error) ∧
    (∀ (row₁ row₂ row₃ : Option ((ℚ × ℚ) × (ℚ × ℚ))) (pcs : List (ℚ × ℚ)),
      row₁ = none ∨ row₂ = none ∨ row₃ = none →
      run_coordinate_transformation row₁ row₂ row₃ pcs = CTResult.error) ∧
    (∀ v₁ v₂ v₃ : (ℚ × ℚ) × (ℚ × ℚ),
      run_coordinate_transformation (some v₁) (some v₂) (some v₃) [] = CTResult.ok []) := by
  refine ⟨?_, ?_, ?_⟩
  · intro v₁ v₂ v₃ pcs hcol hne
    unfold collinear at hcol
    show ct_task pcs v₁.1 v₂.1 v₃.1 v₁.2 v₂.2 v₃.2 = CTResult.error
    rw [ct_task, if_neg hne, getAffineTransform, if_pos hcol]
  · intro row₁ row₂ row₃ pcs hmiss
    rcases hmiss with h | h | h
    · subst h; cases row₂ <;> cases row₃ <;> rfl
    · subst h; cases row₁ <;> cases row₃ <;> rfl
    · subst h; cases row₁ <;> cases row₂ <;> rfl
  · intro v₁ v₂ v₃
    rfl

/-- Witness for `C8_ct_error_handling` at collinear controls and one
center. -/
theorem C8_witness :
    collinear (((0:ℚ), (0:ℚ)), ((0:ℚ), (0:ℚ))).1 (((1:ℚ), (1:ℚ)), ((1:ℚ), (0:ℚ))).1
      (((2:ℚ), (2:ℚ)), ((0:ℚ), (1:ℚ))).1 ∧
    ([((5:ℚ), (5:ℚ))] ≠ []) ∧
    run_coordinate_transformation (some ((0, 0), (0, 0))) (some ((1, 1), (1, 0)))
      (some ((2, 2), (0, 1))) [(5, 5)] = CTResult.error :=
  ⟨by norm_num [collinear], by simp,
    C8_ct_error_handling.1 ((0, 0), (0, 0)) ((1, 1), (1, 0)) ((2, 2), (0, 1)) [(5, 5)]
      (by norm_num [collinear]) (by simp)⟩

/-- Sequential enumeration, Python's `enumerate` starting at `i`. -/
def withIdx {α : Type} : ℕ → List α → List (ℕ × α)
  | _, [] => []
  | i, c :: rest => (i, c) :: withIdx (i + 1) rest

/-- A row of the correspondence table of `plot_task`:
(unique_id, time_step, coordinate); `none` models the NaN fill of src
lines 1819-1821. -/
abbrev Row := ℕ × ℕ × Option (ℚ × ℚ)

/-- Squared Euclidean distance between real-coordinate points; the
`dist <= MAX_MATCHING_DISTANCE` threshold (0.5, src lines 1777 and 1794)
is equivalent to squared distance ≤ 1/4, and sorting by distance is the
same as sorting by squared distance. -/
def distSqQ (p q : ℚ × ℚ) : ℚ := (p.1 - q.1) * (p.1 - q.1) + (p.2 - q.2) * (p.2 - q.2)

/-- Lexicographic comparison of (distance, reference id, candidate index)
triples, Python's tuple order used by `potential_matches.sort()` (src
line 1797); distances are represented by their squares. -/
def matchle (u v : ℚ × ℕ × ℕ) : Prop :=
  u.1 < v.1 ∨ (u.1 = v.1 ∧ (u.2.1 < v.2.1 ∨ (u.2.1 = v.2.1 ∧ u.2.2 ≤ v.2.2)))

instance : DecidableRel matchle := fun u v =>
  inferInstanceAs (Decidable (u.1 < v.1 ∨ (u.1 = v.1 ∧ (u.2.1 < v.2.1 ∨
    (u.2.1 = v.2.1 ∧ u.2.2 ≤ v.2.2)))))

instance : IsTotal (ℚ × ℕ × ℕ) matchle := by
  constructor
  intro u v
  rcases lt_trichotomy u.1 v.1 with h | h | h
  · exact Or.inl (Or.inl h)
  · rcases lt_trichotomy u.2.1 v.2.1 with h2 | h2 | h2
    · exact Or.inl (Or.inr ⟨h, Or.inl h2⟩)
    · rcases le_total u.2.2 v.2.2 with h3 | h3
      · exact Or.inl (Or.inr ⟨h, Or.inr ⟨h2, h3⟩⟩)
      · exact Or.inr (Or.inr ⟨h.symm, Or.inr ⟨h2.symm, h3⟩⟩)
    · exact Or.inr (Or.inr ⟨h.symm, Or.inl h2⟩)
  · exact Or.inr (Or.inl h)

instance : IsTrans (ℚ × ℕ × ℕ) matchle := by
  constructor
  intro a b c hab hbc
  rcases hab with h1 | ⟨h1, hab2⟩
  · rcases hbc with h2 | ⟨h2, _⟩
    · exact Or.inl (h1.trans h2)
    · exact Or.inl (h2 ▸ h1)
  · rcases hbc with h2 | ⟨h2, hbc2⟩
    · exact Or.inl (h1 ▸ h2)
    · refine Or.inr ⟨h1.trans h2, ?_⟩
      rcases hab2 with h3 | ⟨h3, hab3⟩
      · rcases hbc2 with h4 | ⟨h4, _⟩
        · exact Or.inl (h3.trans h4)
        · exact Or.inl (h4 ▸ h3)
      · rcases hbc2 with h4 | ⟨h4, hbc3⟩
        · exact Or.inl (h3 ▸ h4)
        · exact Or.inr ⟨h3.trans h4, hab3.trans hbc3⟩

/-- Candidate pair generation of src lines 1790-1795: every
(distance, reference id, candidate index) triple whose distance is within
the matching threshold, enumerated reference-first, candidate-second. -/
def potentialMatches (refs : List (ℕ × (ℚ × ℚ))) (cur : List (ℚ × ℚ)) :
    List (ℚ × ℕ × ℕ) :=
  refs.flatMap (fun ref => (withIdx 0 cur).filterMap (fun c =>
    if distSqQ ref.2 c.2 ≤ 1/4 then some (distSqQ ref.2 c.2, ref.1, c.1) else none))

/-- Greedy commitment loop of src lines 1804-1810: walk the sorted pairs
and commit a pair when neither its reference id nor its candidate index
has been used; committed pairs accumulate in commit order, forming both
the period's match dictionary and the next reference set. -/
def greedyMatch (cur : List (ℚ × ℚ)) :
    List (ℚ × ℕ × ℕ) → List ℕ → List ℕ → List (ℕ × (ℚ × ℚ)) → List (ℕ × (ℚ × ℚ))
  | [], _, _, acc => acc
  | m :: rest, usedRef, usedCur, acc =>
    if m.2.1 ∈ usedRef ∨ m.2.2 ∈ usedCur then
      greedyMatch cur rest usedRef usedCur acc
    else
      greedyMatch cur rest (m.2.1 :: usedRef) (m.2.2 :: usedCur)
        (acc ++ [(m.2.1, cur.getD m.2.2 (0, 0))])

/-- One period of the tracking loop of `plot_task` (src lines 1779-1822).
With an empty candidate set or an empty reference set the period is
skipped (`continue`, src lines 1781-1783): no rows are recorded and the
reference set is unchanged.  Otherwise every reference id receives one
row — its matched coordinate, or `none` (NaN) when unmatched — and the
matched pairs become the reference set for the next period. -/
def periodCommits (refs : List (ℕ × (ℚ × ℚ))) (cur : List (ℚ × ℚ)) :
    List (ℕ × (ℚ × ℚ)) :=
  greedyMatch cur ((potentialMatches refs cur).insertionSort matchle) [] [] []

def trackStep (t : ℕ) (refs : List (ℕ × (ℚ × ℚ))) (cur : List (ℚ × ℚ)) :
    List Row × List (ℕ × (ℚ × ℚ)) :=
  if cur = [] ∨ refs = [] then ([], refs)
  else
    (refs.map (fun ref =>
      match (periodCommits refs cur).lookup ref.1 with
      | some c => (ref.1, t, some c)
      | none => (ref.1, t, none)),
     periodCommits refs cur)

/-- Tracking of the periods after the first; `t` is the 1-based time step
of the next period to process. -/
def trackAux (t : ℕ) (refs : List (ℕ × (ℚ × ℚ))) : List (List (ℚ × ℚ)) → List Row
  | [] => []
  | cur :: more =>
    (trackStep t refs cur).1 ++ trackAux (t + 1) (trackStep t refs cur).2 more

/-- CorrespondenceTracker of `plot_task` (src lines 1746-1822): the first
period's points receive fresh sequential ids, populating the table at
time step 1 and the initial reference set; the remaining periods are
processed by `trackStep`. -/
def plot_task_track (periods : List (List (ℚ × ℚ))) : List Row :=
  match periods with
  | [] => []
  | first :: rest =>
    (withIdx 0 first).map (fun ic => (ic.1, 1, some ic.2)) ++
      trackAux 2 (withIdx 0 first) rest

theorem lookup_eq_none_iff (l : List (ℕ × (ℚ × ℚ))) (u : ℕ) :
    l.lookup u = none ↔ u ∉ l.map Prod.fst := by
  induction l with
  | nil => simp [List.lookup]
  | cons kv tl ih =>
    cases kv with
    | mk k b =>
      by_cases h : u = k
      · subst h
        simp [List.lookup]
      · have hbeq : (u == k) = false := beq_eq_false_iff_ne.2 h
        simp [List.lookup, hbeq, h, ih]

theorem potentialMatches_ids (refs : List (ℕ × (ℚ × ℚ))) (cur : List (ℚ × ℚ)) :
    ∀ m ∈ potentialMatches refs cur, m.2.1 ∈ refs.map Prod.fst := by
  intro m hm
  obtain ⟨ref, href, hm'⟩ := List.mem_flatMap.1 hm
  obtain ⟨c, _, hc⟩ := List.mem_filterMap.1 hm'
  by_cases h : distSqQ ref.2 c.2 ≤ 1/4
  · rw [if_pos h, Option.some.injEq] at hc
    subst hc
    exact List.mem_map.2 ⟨ref, href, rfl⟩
  · rw [if_neg h] at hc
    cases hc

theorem greedyMatch_ids (cur : List (ℚ × ℚ)) :
    ∀ (pm : List (ℚ × ℕ × ℕ)) (usedRef usedCur : List ℕ) (acc : List (ℕ × (ℚ × ℚ))),
      ∀ x ∈ greedyMatch cur pm usedRef usedCur acc,
        x.1 ∈ acc.map Prod.fst ∨ x.1 ∈ pm.map (fun m => m.2.1) := by
  intro pm
  induction pm with
  | nil =>
    intro usedRef usedCur acc x hx
    rw [greedyMatch] at hx
    exact Or.inl (List.mem_map.2 ⟨x, hx, rfl⟩)
  | cons m rest ih =>
    intro usedRef usedCur acc x hx
    rw [greedyMatch] at hx
    by_cases h : m.2.1 ∈ usedRef ∨ m.2.2 ∈ usedCur
    · rw [if_pos h] at hx
      rcases ih _ _ _ x hx with h' | h'
      · exact Or.inl h'
      · exact Or.inr (List.mem_cons_of_mem _ h')
    · rw [if_neg h] at hx
      rcases ih _ _ _ x hx with h' | h'
      · rw [List.map_append] at h'
        rcases List.mem_append.1 h' with h'' | h''
        · exact Or.inl h''
        · simp only [List.map_cons, List.map_nil, List.mem_singleton] at h''
          exact Or.inr (by rw [h'']; exact List.mem_cons_self _ _)
      · exact Or.inr (List.mem_cons_of_mem _ h')

theorem trackStep_refs_subset (t : ℕ) (refs : List (ℕ × (ℚ × ℚ))) (cur : List (ℚ × ℚ)) :
    ∀ u ∈ (trackStep t refs cur).2.map Prod.fst, u ∈ refs.map Prod.fst := by
  intro u hu
  rw [trackStep] at hu
  by_cases h : cur = [] ∨ refs = []
  · rw [if_pos h] at hu
    exact hu
  · rw [if_neg h] at hu
    obtain ⟨x, hx, rfl⟩ := List.mem_map.1 hu
    rcases greedyMatch_ids cur _ [] [] [] x hx with h' | h'
    · simp at h'
    · obtain ⟨m, hm, heq⟩ := List.mem_map.1 h'
      rw [← heq]
      exact potentialMatches_ids refs cur m ((List.mem_insertionSort matchle).1 hm)

theorem trackStep_rows (t : ℕ) (refs : List (ℕ × (ℚ × ℚ))) (cur : List (ℚ × ℚ)) :
    ∀ row ∈ (trackStep t refs cur).1, row.2.1 = t ∧ row.1 ∈ refs.map Prod.fst := by
  intro row hrow
  rw [trackStep] at hrow
  by_cases h : cur = [] ∨ refs = []
  · rw [if_pos h] at hrow
    simp at hrow
  · rw [if_neg h] at hrow
    obtain ⟨ref, href, hrow'⟩ := List.mem_map.1 hrow
    cases hl : (periodCommits refs cur).lookup ref.1 with
    | some c =>
      rw [hl] at hrow'
      rw [← hrow']
      exact ⟨rfl, List.mem_map.2 ⟨ref, href, rfl⟩⟩
    | none =>
      rw [hl] at hrow'
      rw [← hrow']
      exact ⟨rfl, List.mem_map.2 ⟨ref, href, rfl⟩⟩

theorem trackStep_none_dropped (t : ℕ) (refs : List (ℕ × (ℚ × ℚ))) (cur : List (ℚ × ℚ)) :
    ∀ u s, ((u, s, none) : Row) ∈ (trackStep t refs cur).1 →
      u ∉ (trackStep t refs cur).2.map Prod.fst := by
  intro u s hmem
  rw [trackStep] at hmem ⊢
  by_cases h : cur = [] ∨ refs = []
  · rw [if_pos h] at hmem
    simp at hmem
  · rw [if_neg h] at hmem ⊢
    obtain ⟨ref, _, hrow'⟩ := List.mem_map.1 hmem
    cases hl : (periodCommits refs cur).lookup ref.1 with
    | some c =>
      rw [hl] at hrow'
      simp only [Prod.mk.injEq] at hrow'
      exact absurd hrow'.2.2 (by simp)
    | none =>
      rw [hl] at hrow'
      simp only [Prod.mk.injEq] at hrow'
      rw [← hrow'.1]
      exact (lookup_eq_none_iff (periodCommits refs cur) ref.1).1 hl

theorem trackAux_no_rows :
    ∀ (more : List (List (ℚ × ℚ))) (t : ℕ) (refs : List (ℕ × (ℚ × ℚ))) (u : ℕ),
      u ∉ refs.map Prod.fst →
      ∀ (t' : ℕ) (c : Option (ℚ × ℚ)), ((u, t', c) : Row) ∉ trackAux t refs more := by
  intro more
  induction more with
  | nil =>
    intro t refs u _ t' c hmem
    simp [trackAux] at hmem
  | cons cur more' ih =>
    intro t refs u hu t' c hmem
    rw [trackAux] at hmem
    rcases List.mem_append.1 hmem with hA | hB
    · exact hu (trackStep_rows t refs cur _ hA).2
    · exact ih (t + 1) _ u
        (fun hmem' => hu (trackStep_refs_subset t refs cur u hmem')) t' c hB

theorem trackAux_step_ge :
    ∀ (more : List (List (ℚ × ℚ))) (t : ℕ) (refs : List (ℕ × (ℚ × ℚ))),
      ∀ row ∈ trackAux t refs more, t ≤ row.2.1 := by
  intro more
  induction more with
  | nil =>
    intro t refs row hrow
    simp [trackAux] at hrow
  | cons cur more' ih =>
    intro t refs row hrow
    rw [trackAux] at hrow
    rcases List.mem_append.1 hrow with hA | hB
    · exact le_of_eq (trackStep_rows t refs cur row hA).1.symm
    · exact le_trans (Nat.le_succ t) (ih (t + 1) _ row hB)

theorem trackAux_none_dropped :
    ∀ (more : List (List (ℚ × ℚ))) (t : ℕ) (refs : List (ℕ × (ℚ × ℚ))) (u s : ℕ),
      ((u, s, none) : Row) ∈ trackAux t refs more →
      ∀ (t' : ℕ) (c : Option (ℚ × ℚ)), s < t' →
        ((u, t', c) : Row) ∉ trackAux t refs more := by
  intro more
  induction more with
  | nil =>
    intro t refs u s hmem
    simp [trackAux] at hmem
  | cons cur more' ih =>
    intro t refs u s hmem t' c hlt hcontra
    rw [trackAux] at hmem hcontra
    rcases List.mem_append.1 hmem with hA | hB
    · have hst : s = t := (trackStep_rows t refs cur _ hA).1
      have hnotref : u ∉ (trackStep t refs cur).2.map Prod.fst :=
        trackStep_none_dropped t refs cur u s hA
      rcases List.mem_append.1 hcontra with hC | hD
      · have ht' : t' = t := (trackStep_rows t refs cur _ hC).1
        omega
      · exact trackAux_no_rows more' (t + 1) _ u hnotref t' c hD
    · rcases List.mem_append.1 hcontra with hC | hD
      · have ht' : t' = t := (trackStep_rows t refs cur _ hC).1
        have hs : t + 1 ≤ s := trackAux_step_ge more' (t + 1) _ _ hB
        omega
      · exact ih (t + 1) _ u s hB t' c hlt hD

/-- Concrete run of the tracker on three one-point periods: the single id
0 matches nothing in period 2 (distance √200 > 0.5), records NaN there,
is dropped from the reference set, and the reference-empty period 3 is
skipped entirely. -/
theorem plot_track_example_eval :
    plot_task_track [[(0, 0)], [(10, 10)], [(0, 0)]] =
      [(0, 1, some (0, 0)), (0, 2, none)] := by
  norm_num [plot_task_track, trackAux, trackStep, periodCommits, greedyMatch,
    potentialMatches, withIdx, distSqQ, List.insertionSort, List.orderedInsert,
    List.lookup, List.cons_ne_nil]

/-- Claim C1 (counterexample): in the run above, id 0 is observed in
period 1 and goes unmatched in period 2; the claim requires a (missing)
row for id 0 in period 3, but the table has no period-3 row at all — the
id was deleted from the reference set after its first unmatched period. -/
theorem C1_counterexample :
    plot_task_track [[(0, 0)], [(10, 10)], [(0, 0)]] =
      [(0, 1, some (0, 0)), (0, 2, none)] ∧
    ((0, 3, (none : Option (ℚ × ℚ))) : Row) ∉
      plot_task_track [[(0, 0)], [(10, 10)], [(0, 0)]] ∧
    ((0, 3, some ((0:ℚ), (0:ℚ))) : Row) ∉
      plot_task_track [[(0, 0)], [(10, 10)], [(0, 0)]] := by
  refine ⟨plot_track_example_eval, ?_, ?_⟩ <;>
  · rw [plot_track_example_eval]
    norm_num

/-- Claim C1 (amended): once a tracked id records a missing (NaN) value at
some period `s`, the output table contains no row for that id — matched
or missing — at any later period: an unmatched id is dropped from the
reference set instead of being retained, and a period with no candidates
or an empty reference set is skipped without producing rows. -/
theorem C1_unmatched_id_dropped :
    ∀ (periods : List (List (ℚ × ℚ))) (u s : ℕ),
      ((u, s, none) : Row) ∈ plot_task_track periods →
      ∀ (t' : ℕ) (c : Option (ℚ × ℚ)), s < t' →
        ((u, t', c) : Row) ∉ plot_task_track periods := by
  intro periods u s hmem t' c hlt hcontra
  cases periods with
  | nil => simp [plot_task_track] at hmem
  | cons first rest =>
    rw [plot_task_track] at hmem hcontra
    have hinit : ∀ row : Row,
        row ∈ (withIdx 0 first).map (fun ic => (ic.1, 1, some ic.2)) →
        row.2.1 = 1 ∧ ∃ d, row.2.2 = some d := by
      intro row hrow
      obtain ⟨ic, _, hic⟩ := List.mem_map.1 hrow
      rw [← hic]
      exact ⟨rfl, ic.2, rfl⟩
    rcases List.mem_append.1 hmem with hA | hB
    · obtain ⟨_, d, hd⟩ := hinit _ hA
      cases hd
    · rcases List.mem_append.1 hcontra with hC | hD
      · have h1 : t' = 1 := (hinit _ hC).1
        have h2 : 2 ≤ s := trackAux_step_ge rest 2 _ _ hB
        omega
      · exact trackAux_none_dropped rest 2 _ u s hB t' c hlt hD

/-- Witness for `C1_unmatched_id_dropped` on the concrete three-period
run: id 0 records NaN at period 2 and consequently has no row at
period 3. -/
theorem C1_witness :
    ((0, 2, (none : Option (ℚ × ℚ))) : Row) ∈
      plot_task_track [[(0, 0)], [(10, 10)], [(0, 0)]] ∧
    (2 : ℕ) < 3 ∧
    ((0, 3, some ((0:ℚ), (0:ℚ))) : Row) ∉
      plot_task_track [[(0, 0)], [(10, 10)], [(0, 0)]] := by
  have hmem : ((0, 2, (none : Option (ℚ × ℚ))) : Row) ∈
      plot_task_track [[(0, 0)], [(10, 10)], [(0, 0)]] := by
    rw [plot_track_example_eval]
    norm_num
  exact ⟨hmem, by norm_num,
    C1_unmatched_id_dropped [[(0, 0)], [(10, 10)], [(0, 0)]] 0 2 hmem 3
      (some (0, 0)) (by norm_num)⟩

end MPAIS
